import Mathlib

/-!
Verification of `scripts/check_function_complexity.py`, a CI gate that scans
source files for function definitions, measures each function's line extent
with a literal-aware brace-depth scanner, and fails when an unsuppressed
function exceeds a line threshold.

The embedding works on a file already split at newline characters, exactly as
the script does (`content.split('\n')`), so a file is a `List (List Char)`.
Line numbers are 1-based (`enumerate(lines, 1)`), while the scan index `i` of
the extent loop is 0-based, as in the source.
-/

set_option maxRecDepth 4000

namespace CheckFunctionComplexity

/-- Character constants used by the scanner, written via code points so that
the scanner's comparisons are explicit. -/
def quoteChar : Char := Char.ofNat 34

def apostropheChar : Char := Char.ofNat 39

def backslashChar : Char := Char.ofNat 92

def openBraceChar : Char := Char.ofNat 123

def closeBraceChar : Char := Char.ofNat 125

/-- State of the per-line literal scan of `count_braces_outside_strings`:
the local variables `in_string`, `in_char`, `escape_next`, `count_open`,
`count_close` of the Python function. -/
structure BraceScanState where
  in_string : Bool
  in_char : Bool
  escape_next : Bool
  count_open : Nat
  count_close : Nat
deriving DecidableEq

/-- Initial scan state at the start of each line. -/
def initBraceState : BraceScanState := ⟨false, false, false, 0, 0⟩

/-- One iteration of the `for i, ch in enumerate(line)` loop body of
`count_braces_outside_strings`, in the source's branch order: pending escape
first, then backslash, then the in-string and in-char states, then the
delimiter-opening and brace-counting branches. -/
def braceStep (s : BraceScanState) (ch : Char) : BraceScanState :=
  if s.escape_next then { s with escape_next := false }
  else if ch = backslashChar then { s with escape_next := true }
  else if s.in_string then
    (if ch = quoteChar then { s with in_string := false } else s)
  else if s.in_char then
    (if ch = apostropheChar then { s with in_char := false } else s)
  else if ch = quoteChar then { s with in_string := true }
  else if ch = apostropheChar then { s with in_char := true }
  else if ch = openBraceChar then { s with count_open := s.count_open + 1 }
  else if ch = closeBraceChar then { s with count_close := s.count_close + 1 }
  else s

/-- `count_braces_outside_strings(line)`: fold the per-character step over the
line starting from the reset state and return `(count_open, count_close)`. -/
def count_braces_outside_strings (line : List Char) : Nat × Nat :=
  let s := line.foldl braceStep initBraceState
  (s.count_open, s.count_close)

/-- Signed brace delta of one line, `open_braces - close_braces`, the amount
added to `brace_level` by the extent loop. -/
def lineDelta (line : List Char) : Int :=
  ((count_braces_outside_strings line).1 : Int)
    - ((count_braces_outside_strings line).2 : Int)

/-- Sum of the line deltas of a list of lines: the total brace-level change
contributed by those lines. -/
def cumDelta (lines : List (List Char)) : Int := (lines.map lineDelta).sum

/-- The extent loop `for i in range(fn_start - 1, len(lines))` of
`find_large_functions`. `level` is `brace_level` before the current line,
`j` is `i - (fn_start - 1)`, the value assigned to `fn_lines` at the top of
the iteration. The loop breaks when `brace_level == 0 and i > fn_start - 1`;
if the lines run out, `fn_lines` keeps its last assigned value `j - 1`
(or its initial value `0` when no iteration ran). -/
def measureAux : Int → Nat → List (List Char) → Nat
  | _, j, [] => j - 1
  | level, j, line :: rest =>
    if level + lineDelta line = 0 ∧ 0 < j then j
    else measureAux (level + lineDelta line) (j + 1) rest

/-- `fn_lines` as computed for a function whose signature is the head of
`tail` (the suffix of the file from `fn_start - 1` on). -/
def measure (tail : List (List Char)) : Nat := measureAux 0 0 tail

/-- Python `\s` on its ASCII range: the whitespace class of the pattern. -/
def isPySpace (c : Char) : Bool :=
  c = ' ' || c = '\t' || c = '\n' || c = '\x0b' || c = '\x0c' || c = '\r'

/-- Python `\w` on its ASCII range: letters, digits and underscore. -/
def isWordChar (c : Char) : Bool := c.isAlphanum || c = '_'

/-- Match a literal keyword as a prefix of the input, returning the rest. -/
def dropLit : List Char → List Char → Option (List Char)
  | [], cs => some cs
  | _ :: _, [] => none
  | k :: ks, c :: cs => if c = k then dropLit ks cs else none

/-- First-success choice between two attempts, the backtracking alternative
of the regex engine. -/
def opor {α : Type} : Option α → Option α → Option α
  | some a, _ => some a
  | none, b => b

/-- `\s*` with full backtracking: greedily consume whitespace characters,
trying the continuation at every split point, longest consumed first, as
Python's regex engine does. -/
def starSpace {α : Type} : List Char → (List Char → Option α) → Option α
  | [], k => k []
  | c :: rest, k =>
    if isPySpace c then opor (starSpace rest k) (k (c :: rest)) else k (c :: rest)

/-- `\s+` with backtracking: at least one whitespace character, then `\s*`. -/
def plusSpace {α : Type} : List Char → (List Char → Option α) → Option α
  | [], _ => none
  | c :: rest, k => if isPySpace c then starSpace rest k else none

/-- A literal followed by a continuation; fails when the literal is absent. -/
def litThen {α : Type} (kw cs : List Char) (f : List Char → Option α) : Option α :=
  match dropLit kw cs with
  | some b => f b
  | none => none

/-- An optional greedy group `(kw\s+)?`: try the keyword plus whitespace
first, fall back to matching the empty string, as the regex engine does. -/
def optGroup {α : Type} (kw cs : List Char) (k : List Char → Option α) : Option α :=
  opor (litThen kw cs fun b => plusSpace b k) (k cs)

/-- Visibility modifier keyword of the pattern. -/
def kwPub : List Char := "pub".toList

/-- Asynchronous modifier keyword of the pattern. -/
def kwAsync : List Char := "async".toList

/-- Unsafety modifier keyword of the pattern (third optional group). -/
def modThree : List Char := "unsafe".toList

/-- Function keyword of the pattern. -/
def kwFn : List Char := "fn".toList

/-- `\w+` capturing the name: succeeds iff the next character is a word
character, returning the maximal word-character run. -/
def nameTail (cs : List Char) : Option (List Char) :=
  match cs with
  | c :: _ => if isWordChar c then some (cs.takeWhile isWordChar) else none
  | [] => none

/-- `re.match` of the pattern
`^(?P<indent>\s*)(?P<mods>(pub\s+)?(async\s+)?(unsafe\s+)?)fn\s+(?P<name>\w+)`
against a line, returning the captured name on success. Each component is
greedy with the backtracking alternatives the regex engine explores. -/
def fn_pattern_match (line : List Char) : Option (List Char) :=
  starSpace line fun cs1 =>
    optGroup kwPub cs1 fun cs2 =>
      optGroup kwAsync cs2 fun cs3 =>
        optGroup modThree cs3 fun cs4 =>
          litThen kwFn cs4 fun cs5 =>
            plusSpace cs5 nameTail

/-- One violation entry `(rel_path, fn_name, fn_start, fn_lines)` appended by
`find_large_functions`. -/
structure Violation where
  rel_path : String
  fn_name : String
  fn_start : Nat
  fn_lines : Nat
deriving DecidableEq

/-- The per-line loop of `find_large_functions` restricted to one file:
`n` is the 1-based number of the head line; on a pattern match the extent is
measured on the suffix starting at the matching line, and the record is kept
iff `fn_lines > max_lines`. Scanning always continues with the next line. -/
def findAux (path : String) (maxLines : Nat) : Nat → List (List Char) → List Violation
  | _, [] => []
  | n, line :: rest =>
    match fn_pattern_match line with
    | none => findAux path maxLines (n + 1) rest
    | some name =>
      if maxLines < measure (line :: rest) then
        ⟨path, String.mk name, n, measure (line :: rest)⟩ :: findAux path maxLines (n + 1) rest
      else findAux path maxLines (n + 1) rest

/-- `find_large_functions` on one already-read file with relative path
`path` and lines `lines`. -/
def find_large_functions (path : String) (maxLines : Nat)
    (lines : List (List Char)) : List Violation :=
  findAux path maxLines 1 lines

/-- All located functions of a file with their measured extents, before the
threshold comparison: the records the scan measures. -/
def locAux (path : String) : Nat → List (List Char) → List Violation
  | _, [] => []
  | n, line :: rest =>
    match fn_pattern_match line with
    | none => locAux path (n + 1) rest
    | some name =>
      ⟨path, String.mk name, n, measure (line :: rest)⟩ :: locAux path (n + 1) rest

/-- Located-function records of a file, 1-based line numbers. -/
def located_functions (path : String) (lines : List (List Char)) : List Violation :=
  locAux path 1 lines

/-- Allowlist key `f"{file}:{fn}"` of a violation. -/
def violKey (v : Violation) : String := v.rel_path ++ ":" ++ v.fn_name

/-- The violations actually printed by the `__main__` loop: those whose key
is not in `ALLOWED_FUNCTIONS`. -/
def reported (allowed : List String) (vs : List Violation) : List Violation :=
  vs.filter fun v => !(allowed.contains (violKey v))

/-- The `violation_found` flag after the `__main__` loop. -/
def violation_found (allowed : List String) (vs : List Violation) : Bool :=
  vs.any fun v => !(allowed.contains (violKey v))

/-- Process exit status: `sys.exit(1)` when a violation was found, otherwise
the script falls off the end and exits 0. -/
def exit_code (allowed : List String) (vs : List Violation) : Nat :=
  if violation_found allowed vs then 1 else 0

/-- `ALLOWED_FUNCTIONS` as defined in the script: the empty set. -/
def ALLOWED_FUNCTIONS : List String := []

/-- Signature line of the synthetic boundary examples: `fn f() {`. -/
def sigLine : List Char := String.toList "fn f() \x7b"

/-- Body filler line of the synthetic boundary examples. -/
def fillerLine : List Char := String.toList "    a();"

/-- Closing-brace line of the synthetic boundary examples. -/
def closeLine : List Char := String.toList "\x7d"

/-- A file whose single function measures exactly 100: signature line, 99
filler lines, closing line. -/
def lines_100 : List (List Char) :=
  sigLine :: (List.replicate 99 fillerLine ++ [closeLine])

/-- A file whose single function measures exactly 101. -/
def lines_101 : List (List Char) :=
  sigLine :: (List.replicate 100 fillerLine ++ [closeLine])

/-! ## Helper lemmas about the extent scanner -/

theorem cumDelta_nil : cumDelta [] = 0 := rfl

theorem cumDelta_cons (a : List Char) (ls : List (List Char)) :
    cumDelta (a :: ls) = lineDelta a + cumDelta ls := by
  simp [cumDelta]

/-- When the brace level never returns to zero, the extent loop runs off the
end of the lines and `fn_lines` keeps its last assigned value. -/
theorem measureAux_run_to_end :
    ∀ (tail : List (List Char)) (l : Int) (j : Nat), 1 ≤ j →
      (∀ k, k < tail.length → l + cumDelta (tail.take (k + 1)) ≠ 0) →
      measureAux l j tail = j + tail.length - 1 := by
  intro tail
  induction tail with
  | nil => intro l j _ _; simp [measureAux]
  | cons a rest ih =>
    intro l j hj hne
    have h0 : l + lineDelta a ≠ 0 := by
      have := hne 0 (by simp)
      simpa [cumDelta_cons, cumDelta_nil] using this
    have hrec : ∀ k, k < rest.length → (l + lineDelta a) + cumDelta (rest.take (k + 1)) ≠ 0 := by
      intro k hk
      have := hne (k + 1) (by simp; omega)
      rw [List.take_succ_cons, cumDelta_cons] at this
      intro hcon
      apply this
      omega
    have : measureAux l j (a :: rest) = measureAux (l + lineDelta a) (j + 1) rest := by
      simp only [measureAux]
      rw [if_neg]
      intro hcon
      exact h0 hcon.1
    rw [this, ih (l + lineDelta a) (j + 1) (by omega) hrec]
    simp only [List.length_cons]
    omega

/-- When the brace level first returns to zero after the `p`-th further line
(counting the head as line 0), the extent loop breaks there and reports
`j + p`. -/
theorem measureAux_first_zero :
    ∀ (tail : List (List Char)) (l : Int) (j p : Nat), 1 ≤ j →
      p < tail.length →
      l + cumDelta (tail.take (p + 1)) = 0 →
      (∀ k, k < p → l + cumDelta (tail.take (k + 1)) ≠ 0) →
      measureAux l j tail = j + p := by
  intro tail
  induction tail with
  | nil => intro l j p _ hp _ _; simp at hp
  | cons a rest ih =>
    intro l j p hj hp hz hne
    cases p with
    | zero =>
      have hz0 : l + lineDelta a = 0 := by
        simpa [List.take_succ_cons, cumDelta_cons, cumDelta_nil] using hz
      simp only [measureAux]
      rw [if_pos ⟨hz0, by omega⟩]
      omega
    | succ p =>
      have h0 : l + lineDelta a ≠ 0 := by
        have := hne 0 (by omega)
        simpa [List.take_succ_cons, cumDelta_cons, cumDelta_nil] using this
      have hz2 : (l + lineDelta a) + cumDelta (rest.take (p + 1)) = 0 := by
        rw [List.take_succ_cons, cumDelta_cons, ← add_assoc] at hz
        exact hz
      have hne2 : ∀ k, k < p → (l + lineDelta a) + cumDelta (rest.take (k + 1)) ≠ 0 := by
        intro k hk
        have := hne (k + 1) (by omega)
        rw [List.take_succ_cons, cumDelta_cons] at this
        intro hcon
        apply this
        omega
      have hstep : measureAux l j (a :: rest) = measureAux (l + lineDelta a) (j + 1) rest := by
        simp only [measureAux]
        rw [if_neg]
        intro hcon
        exact h0 hcon.1
      rw [hstep, ih (l + lineDelta a) (j + 1) p (by omega) (by simp at hp; omega) hz2 hne2]
      omega

/-- On the signature line itself the loop never breaks (`i > fn_start - 1`
fails), so measuring starts in earnest on the following lines. -/
theorem measure_cons_step (a : List Char) (rest : List (List Char)) :
    measure (a :: rest) = measureAux (lineDelta a) 1 rest := by
  simp [measure, measureAux]

/-- The extent loop never reports less than the `fn_lines` value it starts
from, as long as at least one line remains. -/
theorem measureAux_ge :
    ∀ (tail : List (List Char)) (l : Int) (j : Nat), tail ≠ [] →
      j ≤ measureAux l j tail := by
  intro tail
  induction tail with
  | nil => intro l j h; exact absurd rfl h
  | cons a rest ih =>
    intro l j _
    simp only [measureAux]
    by_cases h : l + lineDelta a = 0 ∧ 0 < j
    · rw [if_pos h]
    · rw [if_neg h]
      cases rest with
      | nil => simp [measureAux]
      | cons b bs =>
        have := ih (l + lineDelta a) (j + 1) (by simp)
        omega

/-- Every record kept by the per-line loop has its measured length strictly
above the threshold. -/
theorem mem_findAux :
    ∀ (lines : List (List Char)) (path : String) (maxLines n : Nat) (v : Violation),
      v ∈ findAux path maxLines n lines → maxLines < v.fn_lines := by
  intro lines
  induction lines with
  | nil => intro path maxLines n v h; simp [findAux] at h
  | cons line rest ih =>
    intro path maxLines n v h
    cases hm : fn_pattern_match line with
    | none =>
      simp only [findAux, hm] at h
      exact ih path maxLines (n + 1) v h
    | some name =>
      simp only [findAux, hm] at h
      by_cases hlt : maxLines < measure (line :: rest)
      · rw [if_pos hlt] at h
        rcases List.mem_cons.mp h with h | h
        · subst h; exact hlt
        · exact ih path maxLines (n + 1) v h
      · rw [if_neg hlt] at h
        exact ih path maxLines (n + 1) v h

/-- The threshold comparison of `find_large_functions` is exactly a strict
filter over the located-function records. -/
theorem findAux_eq_filter :
    ∀ (lines : List (List Char)) (path : String) (maxLines n : Nat),
      findAux path maxLines n lines
        = (locAux path n lines).filter fun v => decide (maxLines < v.fn_lines) := by
  intro lines
  induction lines with
  | nil => intro path maxLines n; simp [findAux, locAux]
  | cons line rest ih =>
    intro path maxLines n
    cases hm : fn_pattern_match line with
    | none =>
      simp only [findAux, locAux, hm]
      exact ih path maxLines (n + 1)
    | some name =>
      simp only [findAux, locAux, hm, List.filter_cons]
      by_cases hlt : maxLines < measure (line :: rest)
      · rw [if_pos hlt, if_pos (by simpa using hlt), ih path maxLines (n + 1)]
      · rw [if_neg hlt, if_neg (by simpa using hlt), ih path maxLines (n + 1)]

/-! ## Helper lemmas about the signature pattern matcher -/

theorem opor_isSome {α : Type} (a b : Option α) :
    (opor a b).isSome = true ↔ a.isSome = true ∨ b.isSome = true := by
  cases a <;> simp [opor]

theorem dropLit_some_iff :
    ∀ (kw cs rest : List Char), dropLit kw cs = some rest ↔ cs = kw ++ rest := by
  intro kw
  induction kw with
  | nil => intro cs rest; simp [dropLit]
  | cons k ks ih =>
    intro cs rest
    cases cs with
    | nil => simp [dropLit]
    | cons c cs =>
      by_cases h : c = k
      · subst h
        simp [dropLit, ih]
      · simp [dropLit, h]

theorem litThen_isSome {α : Type} (kw cs : List Char) (f : List Char → Option α) :
    (litThen kw cs f).isSome = true ↔ ∃ b, cs = kw ++ b ∧ (f b).isSome = true := by
  cases h : dropLit kw cs with
  | none =>
    simp only [litThen, h, Option.isSome_none, Bool.false_eq_true, false_iff]
    rintro ⟨b, hb, -⟩
    have := (dropLit_some_iff kw cs b).mpr hb
    rw [h] at this
    cases this
  | some b =>
    have hb := (dropLit_some_iff kw cs b).mp h
    subst hb
    simp only [litThen, h]
    constructor
    · intro hf
      exact ⟨b, rfl, hf⟩
    · rintro ⟨b2, hb2, hf⟩
      rw [List.append_right_inj] at hb2
      subst hb2
      exact hf

theorem starSpace_isSome {α : Type} :
    ∀ (cs : List Char) (k : List Char → Option α),
      (starSpace cs k).isSome = true ↔
        ∃ a b, cs = a ++ b ∧ (∀ c ∈ a, isPySpace c = true) ∧ (k b).isSome = true := by
  intro cs
  induction cs with
  | nil =>
    intro k
    constructor
    · intro h; exact ⟨[], [], rfl, by simp, h⟩
    · rintro ⟨a, b, hab, -, hk⟩
      rcases List.append_eq_nil.mp hab.symm with ⟨rfl, rfl⟩
      exact hk
  | cons c rest ih =>
    intro k
    by_cases hc : isPySpace c = true
    · simp only [starSpace, hc, if_pos, opor_isSome, ih]
      constructor
      · rintro (⟨a, b, hab, ha, hk⟩ | hk)
        · exact ⟨c :: a, b, by rw [hab, List.cons_append], by simpa [hc] using ha, hk⟩
        · exact ⟨[], c :: rest, rfl, by simp, hk⟩
      · rintro ⟨a, b, hab, ha, hk⟩
        cases a with
        | nil =>
          right
          simp only [List.nil_append] at hab
          subst hab
          exact hk
        | cons x xs =>
          left
          rw [List.cons_append] at hab
          injection hab with h1 h2
          subst h1
          exact ⟨xs, b, h2, fun d hd => ha d (List.mem_cons_of_mem _ hd), hk⟩
    · simp only [starSpace, hc, if_neg, Bool.false_eq_true, if_false]
      constructor
      · intro hk
        exact ⟨[], c :: rest, rfl, by simp, hk⟩
      · rintro ⟨a, b, hab, ha, hk⟩
        cases a with
        | nil =>
          simp only [List.nil_append] at hab
          subst hab
          exact hk
        | cons x xs =>
          rw [List.cons_append] at hab
          injection hab with h1 h2
          subst h1
          exact absurd (ha c (List.mem_cons_self c xs)) hc

theorem plusSpace_isSome {α : Type} :
    ∀ (cs : List Char) (k : List Char → Option α),
      (plusSpace cs k).isSome = true ↔
        ∃ a b, cs = a ++ b ∧ a ≠ [] ∧ (∀ c ∈ a, isPySpace c = true) ∧ (k b).isSome = true := by
  intro cs k
  cases cs with
  | nil =>
    simp only [plusSpace, Option.isSome_none, Bool.false_eq_true, false_iff]
    rintro ⟨a, b, hab, hne, -, -⟩
    rcases List.append_eq_nil.mp hab.symm with ⟨rfl, -⟩
    exact hne rfl
  | cons c rest =>
    by_cases hc : isPySpace c = true
    · simp only [plusSpace, hc, if_pos, starSpace_isSome]
      constructor
      · rintro ⟨a, b, hab, ha, hk⟩
        exact ⟨c :: a, b, by rw [hab, List.cons_append], by simp, by simpa [hc] using ha, hk⟩
      · rintro ⟨a, b, hab, hne, ha, hk⟩
        cases a with
        | nil => exact absurd rfl hne
        | cons x xs =>
          rw [List.cons_append] at hab
          injection hab with h1 h2
          subst h1
          exact ⟨xs, b, h2, fun d hd => ha d (List.mem_cons_of_mem _ hd), hk⟩
    · simp only [plusSpace, hc, Bool.false_eq_true, if_false, Option.isSome_none, false_iff]
      rintro ⟨a, b, hab, hne, ha, -⟩
      cases a with
      | nil => exact hne rfl
      | cons x xs =>
        rw [List.cons_append] at hab
        injection hab with h1 h2
        subst h1
        exact hc (ha c (List.mem_cons_self c xs))

/-- One optional modifier group `(kw\s+)?` of the pattern, as matched text:
either empty, or the keyword followed by at least one whitespace character. -/
def modOpt (kw m : List Char) : Prop :=
  m = [] ∨ ∃ sp, sp ≠ [] ∧ (∀ c ∈ sp, isPySpace c = true) ∧ m = kw ++ sp

theorem optGroup_isSome {α : Type} (kw cs : List Char) (k : List Char → Option α) :
    (optGroup kw cs k).isSome = true ↔
      ∃ m b, cs = m ++ b ∧ modOpt kw m ∧ (k b).isSome = true := by
  simp only [optGroup, opor_isSome, litThen_isSome, plusSpace_isSome]
  constructor
  · rintro (⟨b, hcs, sp, b2, hb, hsp, hspc, hk⟩ | hk)
    · refine ⟨kw ++ sp, b2, ?_, Or.inr ⟨sp, hsp, hspc, rfl⟩, hk⟩
      rw [hcs, hb, List.append_assoc]
    · exact ⟨[], cs, rfl, Or.inl rfl, hk⟩
  · rintro ⟨m, b, hcs, hmod | ⟨sp, hsp, hspc, hm⟩, hk⟩
    · subst hmod
      right
      simp only [List.nil_append] at hcs
      subst hcs
      exact hk
    · subst hm
      left
      exact ⟨sp ++ b, by rw [hcs, List.append_assoc], sp, b, rfl, hsp, hspc, hk⟩

theorem nameTail_isSome (cs : List Char) :
    (nameTail cs).isSome = true ↔ ∃ c rest, cs = c :: rest ∧ isWordChar c = true := by
  cases cs with
  | nil => simp [nameTail]
  | cons c rest =>
    by_cases h : isWordChar c = true
    · simp only [nameTail, h, if_pos, Option.isSome_some, true_iff]
      exact ⟨c, rest, rfl, h⟩
    · simp only [nameTail, h, Bool.false_eq_true, if_false, Option.isSome_none, false_iff]
      rintro ⟨c2, rest2, heq, hw⟩
      injection heq with h1 h2
      subst h1
      exact h hw

/-- Modelled from the spec's matching rule: after optional leading
whitespace, optional modifier groups in the fixed order visibility,
asynchronous, unsafety, then the function keyword, whitespace, and a word
character starting the identifier. -/
def recognizedSignature (line : List Char) : Prop :=
  ∃ ind m1 m2 m3 sp c rest,
    (∀ x ∈ ind, isPySpace x = true) ∧
    modOpt kwPub m1 ∧ modOpt kwAsync m2 ∧ modOpt modThree m3 ∧
    sp ≠ [] ∧ (∀ x ∈ sp, isPySpace x = true) ∧ isWordChar c = true ∧
    line = ind ++ (m1 ++ (m2 ++ (m3 ++ (kwFn ++ (sp ++ (c :: rest))))))

theorem fn_pattern_match_isSome_iff (line : List Char) :
    (fn_pattern_match line).isSome = true ↔ recognizedSignature line := by
  simp only [fn_pattern_match, starSpace_isSome, optGroup_isSome, litThen_isSome,
    plusSpace_isSome, nameTail_isSome]
  constructor
  · rintro ⟨ind, b1, hline, hind, m1, b2, hb1, hm1, m2, b3, hb2, hm2, m3, b4, hb3, hm3,
      b5, hb4, sp, b6, hb5, hsp, hspc, c, rest, hb6, hw⟩
    subst hb6; subst hb5; subst hb4; subst hb3; subst hb2; subst hb1; subst hline
    exact ⟨ind, m1, m2, m3, sp, c, rest, hind, hm1, hm2, hm3, hsp, hspc, hw, rfl⟩
  · rintro ⟨ind, m1, m2, m3, sp, c, rest, hind, hm1, hm2, hm3, hsp, hspc, hw, hline⟩
    subst hline
    exact ⟨ind, _, rfl, hind, m1, _, rfl, hm1, m2, _, rfl, hm2, m3, _, rfl, hm3,
      _, rfl, sp, _, rfl, hsp, hspc, c, rest, rfl, hw⟩

/-! ## Claim theorems -/

/-- C1 (counterexample): the three-line function `fn f() {` / `    a();` /
`}` is located at line 1, its brace depth returns to zero on line 3, and the
inclusive count from the signature line through that closing line is 3 lines
(a body of L = 2 lines after the signature), yet the scanner reports
`fn_lines = 2`: the loop computes `i - fn_start + 1` with 0-based `i` and
1-based `fn_start`, one less than the claimed inclusive count. -/
theorem C1_counterexample :
    fn_pattern_match (String.toList "fn f() \x7b") = some (String.toList "f")
    ∧ measure [String.toList "fn f() \x7b", String.toList "    a();",
        String.toList "\x7d"] = 2 := by
  decide

/-- C1 (amended): for a function whose signature line is followed by a body
of L lines on whose last line the structural brace depth first returns to
zero, the scanner reports `length_lines = L`, the number of lines after the
signature through the closing line — the inclusive span minus one, not the
inclusive span. -/
theorem C1_theorem :
    ∀ (sig : List Char) (body rest : List (List Char)),
      body ≠ [] →
      (∀ k, k < body.length - 1 → lineDelta sig + cumDelta (body.take (k + 1)) ≠ 0) →
      lineDelta sig + cumDelta body = 0 →
      measure (sig :: (body ++ rest)) = body.length := by
  intro sig body rest hne hk hz
  have hlen : 0 < body.length := List.length_pos.mpr hne
  rw [measure_cons_step]
  have h1 : body.length - 1 < (body ++ rest).length := by
    rw [List.length_append]
    omega
  have h2 : lineDelta sig + cumDelta ((body ++ rest).take (body.length - 1 + 1)) = 0 := by
    have heq : body.length - 1 + 1 = body.length := by omega
    rw [heq, List.take_left]
    exact hz
  have h3 : ∀ k, k < body.length - 1 →
      lineDelta sig + cumDelta ((body ++ rest).take (k + 1)) ≠ 0 := by
    intro k hklt
    rw [List.take_append_of_le_length (by omega)]
    exact hk k hklt
  rw [measureAux_first_zero (body ++ rest) (lineDelta sig) 1 (body.length - 1)
    (le_refl 1) h1 h2 h3]
  omega

/-- C1 (witness): the amended statement applied to the three-line function,
whose body of 2 lines yields a reported length of 2. -/
theorem C1_witness :
    measure (String.toList "fn f() \x7b" ::
      ([String.toList "    a();", String.toList "\x7d"] ++ ([] : List (List Char)))) = 2 :=
  C1_theorem (String.toList "fn f() \x7b")
    [String.toList "    a();", String.toList "\x7d"] [] (by decide) (by decide) (by decide)

/-- C2: while the per-line scan state is inside a double-quoted string or a
character literal, no character changes the brace counts; and for the
function whose body contains a brace inside a string literal, that brace is
not counted and the depth reaches zero at the true closing line (line 3, so
the scan stops there, reporting 2). -/
theorem C2_theorem :
    (∀ (s : BraceScanState) (c : Char), s.in_string = true ∨ s.in_char = true →
        (braceStep s c).count_open = s.count_open
        ∧ (braceStep s c).count_close = s.count_close)
    ∧ count_braces_outside_strings (String.toList "  let s = \"\x7b\";") = (0, 0)
    ∧ measure [String.toList "fn f() \x7b", String.toList "  let s = \"\x7b\";",
        String.toList "\x7d"] = 2 := by
  refine ⟨?_, by decide, by decide⟩
  intro s c h
  unfold braceStep
  split_ifs <;> simp_all

/-- C2 (witness): an opening brace seen while inside a string changes
neither count. -/
theorem C2_witness :
    (braceStep ⟨true, false, false, 0, 0⟩ openBraceChar).count_open = 0
    ∧ (braceStep ⟨true, false, false, 0, 0⟩ openBraceChar).count_close = 0 :=
  C2_theorem.1 ⟨true, false, false, 0, 0⟩ openBraceChar (Or.inl rfl)

/-- C3: the process exits non-zero iff the post-filter list of unsuppressed
violations is non-empty; with no unsuppressed violations it exits zero. -/
theorem C3_theorem :
    ∀ (allowed : List String) (vs : List Violation),
      exit_code allowed vs ≠ 0 ↔ reported allowed vs ≠ [] := by
  intro allowed vs
  unfold exit_code violation_found reported
  by_cases h : vs.any (fun v => !(allowed.contains (violKey v))) = true
  · rw [if_pos h]
    simp only [ne_eq, one_ne_zero, not_false_eq_true, true_iff]
    rcases List.any_eq_true.mp h with ⟨x, hx, hpx⟩
    intro hnil
    exact List.filter_eq_nil_iff.mp hnil x hx hpx
  · rw [if_neg h]
    have hall : ∀ x ∈ vs, ¬ (!(allowed.contains (violKey x))) = true := by
      intro x hx hc
      exact h (List.any_eq_true.mpr ⟨x, hx, hc⟩)
    have hnil : vs.filter (fun v => !(allowed.contains (violKey v))) = [] :=
      List.filter_eq_nil_iff.mpr hall
    rw [hnil]
    simp

/-- C3 (witness): one unsuppressed violation makes the exit status
non-zero. -/
theorem C3_witness :
    exit_code [] [⟨"a.rs", "f", 1, 101⟩] ≠ 0 :=
  (C3_theorem [] [⟨"a.rs", "f", 1, 101⟩]).mpr (by decide)

/-- C4: `find_large_functions` is exactly the strict filter
`length_lines > threshold` over the located-function records, and at the
default threshold 100 a function measured at exactly 100 lines is not a
violation while one measured at 101 lines is. -/
theorem C4_theorem :
    (∀ (path : String) (maxLines : Nat) (lines : List (List Char)),
        find_large_functions path maxLines lines
          = (located_functions path lines).filter fun v => decide (maxLines < v.fn_lines))
    ∧ find_large_functions "a.rs" 100 lines_100 = []
    ∧ find_large_functions "a.rs" 100 lines_101 = [⟨"a.rs", "f", 1, 101⟩] := by
  refine ⟨?_, by decide, by decide⟩
  intro path maxLines lines
  exact findAux_eq_filter lines path maxLines 1

/-- C4 (witness): the filter characterization evaluated on a concrete
two-line file. -/
theorem C4_witness :
    find_large_functions "b.rs" 1 [String.toList "fn g() \x7b", String.toList "\x7d"]
      = (located_functions "b.rs" [String.toList "fn g() \x7b", String.toList "\x7d"]).filter
          fun v => decide (1 < v.fn_lines) :=
  C4_theorem.1 "b.rs" 1 [String.toList "fn g() \x7b", String.toList "\x7d"]

/-- C5: a candidate violation is suppressed iff its `path:function` key is in
the allowlist — a suppressed candidate never appears in the reported output,
an unsuppressed one is reported and makes the run fail, and a run whose
candidates are all suppressed exits zero. -/
theorem C5_theorem :
    (∀ (allowed : List String) (vs : List Violation) (v : Violation), v ∈ vs →
        (allowed.contains (violKey v) = true → v ∉ reported allowed vs)
        ∧ (allowed.contains (violKey v) = false →
            v ∈ reported allowed vs ∧ exit_code allowed vs = 1))
    ∧ (∀ (allowed : List String) (vs : List Violation),
        (∀ v ∈ vs, allowed.contains (violKey v) = true) → exit_code allowed vs = 0) := by
  constructor
  · intro allowed vs v hv
    constructor
    · intro hc hmem
      have hb := (List.mem_filter.mp hmem).2
      simp only [hc, Bool.not_true] at hb
      exact Bool.false_ne_true hb
    · intro hc
      refine ⟨List.mem_filter.mpr ⟨hv, by simp only [hc, Bool.not_false]⟩, ?_⟩
      unfold exit_code violation_found
      rw [if_pos (List.any_eq_true.mpr ⟨v, hv, by simp only [hc, Bool.not_false]⟩)]
  · intro allowed vs hall
    have h : vs.any (fun v => !(allowed.contains (violKey v))) ≠ true := by
      intro h
      rcases List.any_eq_true.mp h with ⟨x, hx, hpx⟩
      rw [hall x hx] at hpx
      simp at hpx
    unfold exit_code violation_found
    rw [if_neg h]

/-- C5 (witness): a violation whose key is allowlisted is not reported and
the run passes; with the empty allowlist the same violation is reported and
the run fails. -/
theorem C5_witness :
    ((⟨"a.rs", "f", 1, 101⟩ : Violation) ∉ reported ["a.rs:f"] [⟨"a.rs", "f", 1, 101⟩])
    ∧ exit_code ["a.rs:f"] [⟨"a.rs", "f", 1, 101⟩] = 0
    ∧ (⟨"a.rs", "f", 1, 101⟩ : Violation) ∈ reported [] [⟨"a.rs", "f", 1, 101⟩]
    ∧ exit_code [] [⟨"a.rs", "f", 1, 101⟩] = 1 :=
  ⟨(C5_theorem.1 ["a.rs:f"] [⟨"a.rs", "f", 1, 101⟩] ⟨"a.rs", "f", 1, 101⟩ (by decide)).1
      (by decide),
   C5_theorem.2 ["a.rs:f"] [⟨"a.rs", "f", 1, 101⟩] (by decide),
   ((C5_theorem.1 [] [⟨"a.rs", "f", 1, 101⟩] ⟨"a.rs", "f", 1, 101⟩ (by decide)).2
      (by decide)).1,
   ((C5_theorem.1 [] [⟨"a.rs", "f", 1, 101⟩] ⟨"a.rs", "f", 1, 101⟩ (by decide)).2
      (by decide)).2⟩

/-- C6: the locator recognizes a line iff, after optional leading whitespace,
the optional modifier groups appear in the fixed order visibility,
asynchronous, unsafety, immediately followed by the function keyword,
whitespace, and a word character starting the identifier; a signature with
the modifiers out of this order, or with a scoped-visibility modifier, is
not recognized. -/
theorem C6_theorem :
    (∀ line, (fn_pattern_match line).isSome = true ↔ recognizedSignature line)
    ∧ fn_pattern_match (String.toList "pub async unsafe fn foo(x: u32) \x7b")
        = some (String.toList "foo")
    ∧ fn_pattern_match (String.toList "unsafe async fn foo()") = none
    ∧ fn_pattern_match (String.toList "pub(crate) fn foo()") = none :=
  ⟨fn_pattern_match_isSome_iff, by decide, by decide, by decide⟩

/-- C6 (witness): `fn main()` is a recognized signature. -/
theorem C6_witness :
    recognizedSignature (String.toList "fn main()") :=
  (C6_theorem.1 (String.toList "fn main()")).mp (by decide)

/-- C7: when the accumulator never returns to zero after the signature line,
the scan runs to the last line of the file and reports that as the length
(`fn_lines = number of lines - 1` for the suffix starting at the signature),
with `measure` a total function: no crash, no distinct error kind. -/
theorem C7_theorem :
    ∀ (tail : List (List Char)), tail ≠ [] →
      (∀ j, j < tail.length → 1 ≤ j → cumDelta (tail.take (j + 1)) ≠ 0) →
      measure tail = tail.length - 1 := by
  intro tail hne hnz
  cases tail with
  | nil => exact absurd rfl hne
  | cons a rest =>
    rw [measure_cons_step]
    have h : ∀ k, k < rest.length → lineDelta a + cumDelta (rest.take (k + 1)) ≠ 0 := by
      intro k hk
      have := hnz (k + 1) (by simp only [List.length_cons]; omega) (by omega)
      rw [List.take_succ_cons, cumDelta_cons] at this
      intro hcon
      apply this
      omega
    rw [measureAux_run_to_end rest (lineDelta a) 1 (le_refl 1) h]
    simp only [List.length_cons]
    omega

/-- C7 (witness): a signature whose brace is never closed scans to the end of
the two-line file and reports 1. -/
theorem C7_witness :
    measure [String.toList "fn f() \x7b", String.toList "    a();"] = 1 :=
  C7_theorem [String.toList "fn f() \x7b", String.toList "    a();"] (by decide) (by decide)

/-- C8 (counterexample): a located function whose signature is the last split
line of the file — a file not ending in a newline — has measured extent 0,
not at least 1: the loop's only iteration assigns `fn_lines = 0` and cannot
break there. -/
theorem C8_counterexample :
    fn_pattern_match (String.toList "fn f()") = some (String.toList "f")
    ∧ measure [String.toList "fn f()"] = 0 := by
  decide

/-- C8 (amended): every violation record produced by a scan has
`length_lines ≥ 1` (its length strictly exceeds the Nat threshold), and the
measured extent of a located function is at least 1 whenever at least one
line follows the signature line; only a signature on the file's final split
line measures 0, and it never yields a record. -/
theorem C8_theorem :
    (∀ (path : String) (maxLines : Nat) (lines : List (List Char)) (v : Violation),
        v ∈ find_large_functions path maxLines lines → 1 ≤ v.fn_lines)
    ∧ (∀ (sig : List Char) (rest : List (List Char)), rest ≠ [] →
        1 ≤ measure (sig :: rest)) := by
  constructor
  · intro path maxLines lines v hv
    have := mem_findAux lines path maxLines 1 v hv
    omega
  · intro sig rest hne
    rw [measure_cons_step]
    exact measureAux_ge rest (lineDelta sig) 1 hne

/-- C8 (witness): the record produced for the three-line function has
length at least 1. -/
theorem C8_witness :
    1 ≤ (⟨"a.rs", "f", 1, 2⟩ : Violation).fn_lines :=
  C8_theorem.1 "a.rs" 1
    [String.toList "fn f() \x7b", String.toList "    a();", String.toList "\x7d"]
    ⟨"a.rs", "f", 1, 2⟩ (by decide)

/-- C9: a backslash sets `escape_next` even outside any literal, so a brace
immediately preceded by an unescaped backslash outside any string or
character literal is consumed as an escaped character and never counted;
concretely, a line holding backslash-brace pairs counts no braces. -/
theorem C9_theorem :
    (∀ (s : BraceScanState),
        s.escape_next = false → s.in_string = false → s.in_char = false →
        braceStep s backslashChar = { s with escape_next := true }
        ∧ (braceStep (braceStep s backslashChar) openBraceChar).count_open = s.count_open
        ∧ (braceStep (braceStep s backslashChar) closeBraceChar).count_close = s.count_close)
    ∧ count_braces_outside_strings (String.toList "\\\x7b\\\x7d") = (0, 0) := by
  refine ⟨?_, by decide⟩
  intro s h1 h2 h3
  refine ⟨?_, ?_, ?_⟩ <;> simp [braceStep, h1, h2, h3]

/-- C9 (witness): from the initial state, backslash-then-brace leaves both
counts unchanged. -/
theorem C9_witness :
    braceStep initBraceState backslashChar = { initBraceState with escape_next := true }
    ∧ (braceStep (braceStep initBraceState backslashChar) openBraceChar).count_open
        = initBraceState.count_open
    ∧ (braceStep (braceStep initBraceState backslashChar) closeBraceChar).count_close
        = initBraceState.count_close :=
  C9_theorem.1 initBraceState rfl rfl rfl

/-- C10: if the accumulator equals zero at the `p`-th line strictly after the
signature line — including when it never became positive — the extent scan
stops there and reports `p`; for a multi-line signature whose opening brace
appears two lines after the `fn` line, the reported length is 1, covering
none of the actual body. -/
theorem C10_theorem :
    (∀ (tail : List (List Char)) (p : Nat),
        p < tail.length → 1 ≤ p →
        cumDelta (tail.take (p + 1)) = 0 →
        (∀ k, k < p → 1 ≤ k → cumDelta (tail.take (k + 1)) ≠ 0) →
        measure tail = p)
    ∧ fn_pattern_match (String.toList "fn foo(") = some (String.toList "foo")
    ∧ measure [String.toList "fn foo(", String.toList "  x: u32", String.toList ") \x7b",
        String.toList "  body();", String.toList "\x7d"] = 1 := by
  refine ⟨?_, by decide, by decide⟩
  intro tail p hp hp1 hz hnz
  cases tail with
  | nil => simp at hp
  | cons a rest =>
    rw [measure_cons_step]
    have hple : p - 1 + 1 = p := by omega
    have h1 : p - 1 < rest.length := by
      simp only [List.length_cons] at hp
      omega
    have h2 : lineDelta a + cumDelta (rest.take (p - 1 + 1)) = 0 := by
      rw [hple]
      have hz2 : cumDelta (a :: rest.take p) = 0 := by
        rw [← List.take_succ_cons]
        exact hz
      rw [cumDelta_cons] at hz2
      exact hz2
    have h3 : ∀ k, k < p - 1 → lineDelta a + cumDelta (rest.take (k + 1)) ≠ 0 := by
      intro k hk
      have := hnz (k + 1) (by omega) (by omega)
      rw [List.take_succ_cons, cumDelta_cons] at this
      intro hcon
      apply this
      omega
    rw [measureAux_first_zero rest (lineDelta a) 1 (p - 1) (le_refl 1) h1 h2 h3]
    omega

/-- C10 (witness): the first-zero rule applied to the multi-line signature
example, reporting 1. -/
theorem C10_witness :
    measure [String.toList "fn foo(", String.toList "  x: u32", String.toList ") \x7b",
      String.toList "  body();", String.toList "\x7d"] = 1 :=
  C10_theorem.1
    [String.toList "fn foo(", String.toList "  x: u32", String.toList ") \x7b",
      String.toList "  body();", String.toList "\x7d"]
    1 (by decide) (by decide) (by decide) (by decide)

end CheckFunctionComplexity
